import Mathlib

/-!
Shallow embedding of the two plotting scripts of the repository:
`script/python/visualize.py` (pipeline B) and `script/plot_benchmark.py`
(pipeline A).  Numeric inputs are modelled as rationals, Python `int(...)`
as truncation toward zero, Python `range` over integers, and errors
(the `ZeroDivisionError` raised on a zero scaled step) as `Option.none`.
-/

namespace Visualize

/-- Python `int(q)` for a real/rational `q`: truncation toward zero
(`⌊q⌋` for nonnegative `q`, `-⌊-q⌋` for negative `q`). -/
def pytrunc (q : ℚ) : ℤ := if 0 ≤ q then ⌊q⌋ else -⌊-q⌋

/-- Python `range(a, b, s)` over integers, for `s ≠ 0` (a zero step raises
`ValueError` in Python; the caller in `ticks` never reaches it with zero).
For positive `s`: the values `a, a+s, a+2*s, ...` strictly below `b`;
for negative `s`: the values `a, a+s, ...` strictly above `b`. -/
def pyrange (a b s : ℤ) : List ℤ :=
  if 0 < s then
    if a < b then
      (List.range ((b - a - 1).toNat / s.toNat + 1)).map (fun k : ℕ => a + (k : ℤ) * s)
    else []
  else
    if b < a then
      (List.range ((a - b - 1).toNat / (-s).toNat + 1)).map (fun k : ℕ => a + (k : ℤ) * s)
    else []

/-- The tick calculator of `script/python/visualize.py`:

    def ticks(min, max, step):
        min = int(min * 10)
        max = int(max * 10)
        step = int(step * 10)
        return list(map(lambda n: n / 10, range(min, int(max / step) * step + 1, step)))

`none` models the `ZeroDivisionError` raised by `int(max / step)` when the
scaled step truncates to zero.  `Int.tdiv` is truncation-toward-zero
division, matching Python `int(max / step)` on integer operands. -/
def ticks (min max step : ℚ) : Option (List ℚ) :=
  let min_s := pytrunc (min * 10)
  let max_s := pytrunc (max * 10)
  let step_s := pytrunc (step * 10)
  if step_s = 0 then none
  else some ((pyrange min_s (Int.tdiv max_s step_s * step_s + 1) step_s).map
    (fun n : ℤ => (n : ℚ) / 10))

/-- The `target_names` lookup table of `script/python/visualize.py`. -/
def target_names : List (String × String) := [("ldbc", "ldbc"), ("jdbc", "jdbc")]

/-- The target-column remapping of pipeline B: the script maps the target
column through the dict `target_names` with pandas `Series.map`, which
sends every element to its value under the dict, and every element absent
from the dict to NaN (modelled as `none`). -/
def seriesMap (mapping : List (String × String)) (column : List String) :
    List (Option String) :=
  column.map (fun v => mapping.lookup v)

/-- A per-feature plot configuration record of `script/python/visualize.py`. -/
structure PlotConf where
  xlabel : String
  ylabel : String
  xmin : ℚ
  ymin : ℚ
  xstep : ℚ
  ystep : ℚ

/-- The `plot_config` table of `script/python/visualize.py`; the script does
`plot_config[feature]`, a dict lookup that raises `KeyError` on a missing
key (modelled by `List.lookup` returning `none`). -/
def plot_config : List (String × PlotConf) :=
  [("Insert", ⟨"Record size", "Throughput (ops/s)", 0, 20, 1000, 10⟩),
   ("Batch", ⟨"Record size", "Throughput (ops/s)", 0, 20, 1000, 10⟩),
   ("Select", ⟨"Record size", "Throughput (ops/s)", 0, 20, 1000, 10⟩)]

end Visualize

namespace PlotBenchmark

/-- Python `str.split(sep)` over a list of characters: splits at every
occurrence of `sep`, keeping empty pieces; the result is always nonempty
(splitting the empty string yields one empty piece). -/
def pysplit (sep : Char) : List Char → List (List Char)
  | [] => [[]]
  | c :: rest =>
    let r := pysplit sep rest
    if c = sep then [] :: r
    else (c :: r.headD []) :: r.tail

/-- The benchmark display name computed by `process_jmh_results` in
`script/plot_benchmark.py`: the benchmark field split at dots, last piece
taken. -/
def benchDisplayName (s : List Char) : List Char := (pysplit '.' s).getLastD []

/-- One raw JMH result record, as consumed by `process_jmh_results`: the
dotted benchmark identifier, the `params` mapping (its values already
integer-converted, which succeeds on valid records), and
`primaryMetric.score`. -/
structure RawResult where
  benchmark : List Char
  params : List (String × ℤ)
  score : ℚ

/-- One row of the flat table built by `process_jmh_results`. -/
structure FlatRow where
  benchmark : List Char
  param : String
  value : ℤ
  score : ℚ

/-- The per-record body of `process_jmh_results`: one flat row per
`params` entry, each carrying the score of the record. -/
def processResult (result : RawResult) : List FlatRow :=
  result.params.map (fun pv =>
    { benchmark := benchDisplayName result.benchmark
      param := pv.1
      value := pv.2
      score := result.score })

/-- `process_jmh_results` of `script/plot_benchmark.py`, applied to the
parsed contents of the files matched by the glob (one `List RawResult`
per file, in order). -/
def process_jmh_results (files : List (List RawResult)) : List FlatRow :=
  files.flatMap (fun results => results.flatMap processResult)

/-- Spec-side characterization from §8 of the spec: the substring after
the last occurrence of `sep`, the whole string when `sep` does not occur. -/
def substringAfterLast (sep : Char) : List Char → List Char
  | [] => []
  | c :: rest =>
    if sep ∈ rest then substringAfterLast sep rest
    else if c = sep then rest else c :: rest

end PlotBenchmark

namespace Visualize

/-! ### Characterization lemmas for `pyrange` and `ticks` -/

theorem pyrange_of_pos {a b s : ℤ} (hs : 0 < s) (hab : a < b) :
    pyrange a b s =
      (List.range ((b - a - 1).toNat / s.toNat + 1)).map (fun k : ℕ => a + (k : ℤ) * s) := by
  unfold pyrange
  rw [if_pos hs, if_pos hab]

theorem pyrange_of_ge {a b s : ℤ} (hs : 0 < s) (hab : b ≤ a) : pyrange a b s = [] := by
  unfold pyrange
  rw [if_pos hs, if_neg (by omega)]

theorem lt_count_iff {a b s : ℤ} (hs : 0 < s) (hab : a < b) (k : ℕ) :
    k < (b - a - 1).toNat / s.toNat + 1 ↔ a + (k : ℤ) * s < b := by
  have ht : ((s.toNat : ℤ)) = s := Int.toNat_of_nonneg hs.le
  have hd : (((b - a - 1).toNat : ℤ)) = b - a - 1 := Int.toNat_of_nonneg (by omega)
  have key : ((k * s.toNat : ℕ) : ℤ) = (k : ℤ) * s := by push_cast [ht]; ring
  rw [Nat.lt_succ_iff, Nat.le_div_iff_mul_le (by omega : 0 < s.toNat)]
  constructor
  · intro h
    have h2 : ((k * s.toNat : ℕ) : ℤ) ≤ b - a - 1 := by
      rw [← hd]; exact_mod_cast h
    rw [key] at h2
    linarith
  · intro h
    have h2 : (k : ℤ) * s ≤ b - a - 1 := by linarith
    have h3 : ((k * s.toNat : ℕ) : ℤ) ≤ (((b - a - 1).toNat : ℕ) : ℤ) := by
      rw [key, hd]; exact h2
    exact_mod_cast h3

theorem mem_pyrange {a b s : ℤ} (hs : 0 < s) (x : ℤ) :
    x ∈ pyrange a b s ↔ ∃ k : ℕ, x = a + (k : ℤ) * s ∧ x < b := by
  by_cases hab : a < b
  · rw [pyrange_of_pos hs hab]
    simp only [List.mem_map, List.mem_range]
    constructor
    · rintro ⟨k, hk, rfl⟩
      exact ⟨k, rfl, (lt_count_iff hs hab k).mp hk⟩
    · rintro ⟨k, rfl, hx⟩
      exact ⟨k, (lt_count_iff hs hab k).mpr hx, rfl⟩
  · rw [pyrange_of_ge hs (by omega)]
    constructor
    · intro h
      simp at h
    · rintro ⟨k, rfl, hx⟩
      exfalso
      have hks : 0 ≤ (k : ℤ) * s := mul_nonneg (Int.natCast_nonneg k) hs.le
      have hba : b ≤ a := le_of_not_lt hab
      linarith

theorem pytrunc_intCast (n : ℤ) : pytrunc (n : ℚ) = n := by
  unfold pytrunc
  by_cases h : (0 : ℚ) ≤ (n : ℚ)
  · rw [if_pos h, Int.floor_intCast]
  · rw [if_neg h, ← Int.cast_neg, Int.floor_intCast, neg_neg]

theorem ticks_eval (min max step : ℚ) (a m s q : ℤ) (l : List ℤ)
    (ha : pytrunc (min * 10) = a) (hm : pytrunc (max * 10) = m)
    (hs : pytrunc (step * 10) = s) (h0 : s ≠ 0)
    (hq : Int.tdiv m s = q) (hl : pyrange a (q * s + 1) s = l) :
    ticks min max step = some (l.map (fun n : ℤ => (n : ℚ) / 10)) := by
  unfold ticks
  simp only [ha, hm, hs, hq, hl]
  rw [if_neg h0]

theorem ticks_closed_form (min max step : ℚ) (a m s : ℤ)
    (ha : min * 10 = (a : ℚ)) (hm : max * 10 = (m : ℚ)) (hs : step * 10 = (s : ℚ))
    (h0 : 0 < s) (hne : a ≤ Int.tdiv m s * s) :
    ticks min max step =
      some ((List.range ((Int.tdiv m s * s - a).toNat / s.toNat + 1)).map
        (fun k : ℕ => min + (k : ℚ) * step)) := by
  have ha' : pytrunc (min * 10) = a := by rw [ha, pytrunc_intCast]
  have hm' : pytrunc (max * 10) = m := by rw [hm, pytrunc_intCast]
  have hs' : pytrunc (step * 10) = s := by rw [hs, pytrunc_intCast]
  rw [ticks_eval min max step a m s (Int.tdiv m s) (pyrange a (Int.tdiv m s * s + 1) s)
    ha' hm' hs' (by omega) rfl rfl]
  rw [pyrange_of_pos h0 (by omega), List.map_map]
  have hb : Int.tdiv m s * s + 1 - a - 1 = Int.tdiv m s * s - a := by ring
  rw [hb]
  refine congrArg some (List.map_congr_left ?_)
  intro k _
  have hmin : min = (a : ℚ) / 10 := by
    field_simp
    linarith
  have hstep : step = (s : ℚ) / 10 := by
    field_simp
    linarith
  simp only [Function.comp_apply]
  rw [hmin, hstep]
  push_cast
  ring

theorem div_step_facts (D s : ℤ) (h0 : 0 < s) (hD : 0 ≤ D) :
    ((D.toNat / s.toNat : ℕ) : ℤ) * s ≤ D ∧ D < (((D.toNat / s.toNat : ℕ) : ℤ) + 1) * s := by
  have ht : ((s.toNat : ℤ)) = s := Int.toNat_of_nonneg h0.le
  have hd : ((D.toNat : ℤ)) = D := Int.toNat_of_nonneg hD
  have hcast : ((D.toNat / s.toNat : ℕ) : ℤ) = D / s := by
    push_cast [ht, hd]
    rfl
  rw [hcast]
  refine ⟨Int.ediv_mul_le D (ne_of_gt h0), ?_⟩
  have := Int.lt_ediv_add_one_mul_self D h0
  linarith

theorem tdiv_boundary_facts (m s : ℤ) (h0 : 0 < s) (hm : 0 ≤ m) :
    Int.tdiv m s * s ≤ m ∧ m < Int.tdiv m s * s + s := by
  rw [Int.tdiv_eq_ediv hm h0.le]
  constructor
  · exact Int.ediv_mul_le m (ne_of_gt h0)
  · have := Int.lt_ediv_add_one_mul_self m h0
    linarith [this]

end Visualize


namespace PlotBenchmark

theorem pysplit_ne_nil (sep : Char) (s : List Char) : pysplit sep s ≠ [] := by
  cases s with
  | nil => simp [pysplit]
  | cons c rest =>
    unfold pysplit
    by_cases h : c = sep <;> simp [h]

theorem pysplit_of_not_mem (sep : Char) (s : List Char) (h : sep ∉ s) :
    pysplit sep s = [s] := by
  induction s with
  | nil => rfl
  | cons c rest ih =>
    have hc : c ≠ sep := fun hc => h (hc ▸ List.mem_cons_self c rest)
    have hrest : sep ∉ rest := fun hr => h (List.mem_cons_of_mem c hr)
    unfold pysplit
    rw [if_neg hc, ih hrest]
    rfl

theorem pysplit_two_le (sep : Char) (s : List Char) (h : sep ∈ s) :
    2 ≤ (pysplit sep s).length := by
  induction s with
  | nil => simp at h
  | cons c rest ih =>
    unfold pysplit
    by_cases hc : c = sep
    · rw [if_pos hc]
      have := pysplit_ne_nil sep rest
      have : 1 ≤ (pysplit sep rest).length := by
        cases hq : pysplit sep rest with
        | nil => exact absurd hq this
        | cons x t => simp
      simp only [List.length_cons]
      omega
    · rw [if_neg hc]
      have hrest : sep ∈ rest := by
        rcases List.mem_cons.mp h with h1 | h2
        · exact absurd h1.symm hc
        · exact h2
      have h2 := ih hrest
      have hlen : (pysplit sep rest).tail.length = (pysplit sep rest).length - 1 :=
        List.length_tail _
      simp only [List.length_cons]
      omega

theorem getLastD_irrel {α : Type} (l : List α) (h : l ≠ []) (d e : α) :
    l.getLastD d = l.getLastD e := by
  cases l with
  | nil => exact absurd rfl h
  | cons a t => rw [List.getLastD_cons, List.getLastD_cons]

theorem pysplit_getLastD (sep : Char) (s : List Char) :
    (pysplit sep s).getLastD [] = substringAfterLast sep s := by
  induction s with
  | nil => rfl
  | cons c rest ih =>
    unfold pysplit substringAfterLast
    by_cases hc : c = sep
    · rw [if_pos hc]
      by_cases hm : sep ∈ rest
      · rw [if_pos hm]
        rw [List.getLastD_cons]
        exact ih
      · rw [if_neg hm, if_pos hc, pysplit_of_not_mem sep rest hm]
        rfl
    · rw [if_neg hc]
      by_cases hm : sep ∈ rest
      · rw [if_pos hm]
        have htail : (pysplit sep rest).tail ≠ [] := by
          have := pysplit_two_le sep rest hm
          have hlen := List.length_tail (pysplit sep rest)
          intro hnil
          rw [hnil] at hlen
          simp at hlen
          omega
        rw [List.getLastD_cons]
        rw [← ih]
        have hdecomp : pysplit sep rest =
            (pysplit sep rest).head (pysplit_ne_nil sep rest) :: (pysplit sep rest).tail := by
          exact (List.head_cons_tail _ _).symm
        conv_rhs => rw [hdecomp]
        rw [List.getLastD_cons]
        exact getLastD_irrel _ htail _ _
      · rw [if_neg hm, if_neg hc, pysplit_of_not_mem sep rest hm]
        rfl

theorem substringAfterLast_of_not_mem (sep : Char) (s : List Char) (h : sep ∉ s) :
    substringAfterLast sep s = s := by
  cases s with
  | nil => rfl
  | cons c rest =>
    have hc : c ≠ sep := fun hc => h (hc ▸ List.mem_cons_self c rest)
    have hrest : sep ∉ rest := fun hr => h (List.mem_cons_of_mem c hr)
    unfold substringAfterLast
    rw [if_neg hrest, if_neg hc]

end PlotBenchmark


/-! ### Claim theorems -/

namespace Visualize

/-- C1 counterexample: the target remapping of pipeline B sends a value
absent from the lookup table to missing (NaN, modelled `none`), not to
itself: the claimed silent passthrough does not happen. -/
theorem target_map_cex :
    seriesMap target_names ["slick"] = [none] ∧
    ([(none : Option String)] ≠ [some "slick"]) := by
  constructor
  · rfl
  · simp

/-- C1 (amended): the target-name remapping maps the two known keys
`ldbc` and `jdbc` to themselves, and maps every value not present in the
lookup table to missing (NaN), silently and without error; so the
remapped value equals the input exactly for the known keys. -/
theorem target_map_amended (column : List String) :
    seriesMap target_names column =
      column.map (fun v => if v = "ldbc" ∨ v = "jdbc" then some v else none) := by
  unfold seriesMap
  refine List.map_congr_left ?_
  intro v _
  by_cases h1 : v = "ldbc"
  · simp [target_names, List.lookup, h1]
  · by_cases h2 : v = "jdbc"
    · simp [target_names, List.lookup, h1, h2]
    · have e1 : (v == "ldbc") = false := beq_eq_false_iff_ne.mpr h1
      have e2 : (v == "jdbc") = false := beq_eq_false_iff_ne.mpr h2
      simp [target_names, List.lookup, e1, e2, h1, h2]

/-- C4: the tick calculator on `min = 0`, `max = 2500`, `step = 1000`
(the `Insert` scenario) returns exactly `[0, 1000, 2000]`. -/
theorem ticks_insert_scenario : ticks 0 2500 1000 = some [0, 1000, 2000] := by
  rw [ticks_eval 0 2500 1000 0 25000 10000 2 [0, 10000, 20000]
    (by norm_num [pytrunc]) (by norm_num [pytrunc]) (by norm_num [pytrunc])
    (by decide) (by decide) (by decide)]
  norm_num

/-- C5: the tick calculator is deterministic: two calls with identical
arguments return identical results (it is a pure function of its
arguments in the embedding, as in the script). -/
theorem ticks_deterministic (min max step : ℚ) :
    ticks min max step = ticks min max step := rfl

/-- C8: when the glob pattern resolves to zero file paths,
`process_jmh_results` returns the empty flat table rather than failing. -/
theorem process_jmh_results_empty_glob :
    PlotBenchmark.process_jmh_results [] = [] := rfl

/-- C9: the `plot_config` lookup of pipeline B fails (raises `KeyError`,
modelled `none`) exactly when the feature name is none of the three fixed
keys `Insert`, `Batch`, `Select`; for those three keys it succeeds. -/
theorem plot_config_lookup_feature (feature : String) :
    plot_config.lookup feature = none ↔
      ¬ (feature = "Insert" ∨ feature = "Batch" ∨ feature = "Select") := by
  by_cases h1 : feature = "Insert"
  · simp [plot_config, List.lookup, h1]
  · by_cases h2 : feature = "Batch"
    · simp [plot_config, List.lookup, h1, h2]
    · by_cases h3 : feature = "Select"
      · simp [plot_config, List.lookup, h1, h2, h3]
      · have e1 : (feature == "Insert") = false := beq_eq_false_iff_ne.mpr h1
        have e2 : (feature == "Batch") = false := beq_eq_false_iff_ne.mpr h2
        have e3 : (feature == "Select") = false := beq_eq_false_iff_ne.mpr h3
        simp [plot_config, List.lookup, e1, e2, e3, h1, h2, h3]

/-- C10: for every step with `0 < step < 0.1`, the fixed-point scaling
`int(step * 10)` truncates the step to zero and the call fails (the
division `int(max / step)` on the zero scaled step raises
`ZeroDivisionError`) instead of returning a sequence. -/
theorem ticks_small_step_fails (min max step : ℚ)
    (hpos : 0 < step) (hsmall : step < 1 / 10) :
    ticks min max step = none := by
  have h0 : pytrunc (step * 10) = 0 := by
    unfold pytrunc
    rw [if_pos (by linarith)]
    rw [Int.floor_eq_zero_iff]
    constructor
    · linarith
    · linarith
  unfold ticks
  simp only [h0]
  simp

/-- Witness for C10 at the concrete step `0.05`. -/
theorem ticks_small_step_fails_witness : ticks 0 100 (1 / 20) = none :=
  ticks_small_step_fails 0 100 (1 / 20) (by norm_num) (by norm_num)

end Visualize

namespace Visualize

/-- C2 counterexample: for `min = 0.5`, `max = 2.7`, `step = 1` the tick
calculator returns `[0.5, 1.5]`, yet `min + 2*step = 2.5 ≤ max` also lies
on a step boundary measured from `min` and exceeds the returned last
element `1.5`: the last element is not the largest value `≤ max` of the
form `min + k*step`. -/
theorem ticks_step_boundary_cex :
    ticks (1/2) (27/10) 1 = some [1/2, 3/2] ∧
    (1/2 : ℚ) + 2 * 1 ≤ 27/10 ∧ (3/2 : ℚ) < 1/2 + 2 * 1 := by
  refine ⟨?_, by norm_num, by norm_num⟩
  rw [ticks_eval (1/2) (27/10) 1 5 27 10 2 [5, 15]
    (by norm_num [pytrunc]) (by norm_num [pytrunc]) (by norm_num [pytrunc])
    (by decide) (by decide) (by decide)]
  norm_num

/-- C2 (amended): for inputs exact in one decimal place (`min*10 = a`,
`max*10 = m`, `step*10 = s` integral), positive step and nonnegative max,
and a nonempty scaled range, `ticks` returns the ordered evenly spaced
sequence starting at `min` with spacing `step` whose last element is the
largest value of the form `min + k*step` not exceeding the largest
multiple of `step` that is `≤ max` — the step boundary is measured from
zero (`int(max/step)*step`), not from `min`. -/
theorem ticks_arith_progression (min max step : ℚ) (a m s : ℤ)
    (ha : min * 10 = (a : ℚ)) (hm : max * 10 = (m : ℚ)) (hs : step * 10 = (s : ℚ))
    (h0 : 0 < s) (hmnn : 0 ≤ m) (hne : a ≤ Int.tdiv m s * s) :
    ticks min max step =
      some ((List.range ((Int.tdiv m s * s - a).toNat / s.toNat + 1)).map
        (fun k : ℕ => min + (k : ℚ) * step)) ∧
    ((ticks min max step).getD []).getLast? =
      some (min + (((Int.tdiv m s * s - a).toNat / s.toNat : ℕ) : ℚ) * step) ∧
    min + (((Int.tdiv m s * s - a).toNat / s.toNat : ℕ) : ℚ) * step ≤
      ((Int.tdiv m s * s : ℤ) : ℚ) / 10 ∧
    ((Int.tdiv m s * s : ℤ) : ℚ) / 10 <
      min + (((Int.tdiv m s * s - a).toNat / s.toNat : ℕ) : ℚ) * step + step ∧
    ((Int.tdiv m s * s : ℤ) : ℚ) / 10 ≤ max ∧
    max < ((Int.tdiv m s * s : ℤ) : ℚ) / 10 + step := by
  have hcf := ticks_closed_form min max step a m s ha hm hs h0 hne
  have hK := div_step_facts (Int.tdiv m s * s - a) s h0 (by omega)
  have hB := tdiv_boundary_facts m s h0 hmnn
  have hmin : min = (a : ℚ) / 10 := by field_simp; linarith
  have hstep : step = (s : ℚ) / 10 := by field_simp; linarith
  have hmax : max = (m : ℚ) / 10 := by field_simp; linarith
  obtain ⟨T, hT⟩ : ∃ T : ℤ, Int.tdiv m s = T := ⟨_, rfl⟩
  rw [hT] at hcf hK hB
  obtain ⟨N, hN⟩ : ∃ N : ℕ, (T * s - a).toNat / s.toNat = N := ⟨_, rfl⟩
  rw [hN] at hcf hK
  rw [hT, hN]
  have q1 : (N : ℚ) * (s : ℚ) ≤ (T : ℚ) * s - a := by exact_mod_cast hK.1
  have q2 : (T : ℚ) * s - a < ((N : ℚ) + 1) * s := by exact_mod_cast hK.2
  have q3 : (T : ℚ) * s ≤ (m : ℚ) := by exact_mod_cast hB.1
  have q4 : (m : ℚ) < (T : ℚ) * s + s := by exact_mod_cast hB.2
  refine ⟨hcf, ?_, ?_, ?_, ?_, ?_⟩
  · rw [hcf]
    simp only [Option.getD_some]
    rw [List.range_succ, List.map_append]
    simp [List.getLast?_concat]
  · rw [hmin, hstep]
    push_cast
    linarith
  · rw [hmin, hstep]
    push_cast
    linarith
  · rw [hmax]
    push_cast
    linarith
  · rw [hmax, hstep]
    push_cast
    linarith

/-- Witness for C2 (amended) at `min = 0.5`, `max = 2.7`, `step = 1`. -/
theorem ticks_arith_progression_witness :
    ticks (1/2) (27/10) 1 =
      some ((List.range ((Int.tdiv 27 10 * 10 - 5).toNat / (10 : ℤ).toNat + 1)).map
        (fun k : ℕ => 1/2 + (k : ℚ) * 1)) ∧
    ((ticks (1/2) (27/10) 1).getD []).getLast? =
      some (1/2 + (((Int.tdiv 27 10 * 10 - 5).toNat / (10 : ℤ).toNat : ℕ) : ℚ) * 1) ∧
    1/2 + (((Int.tdiv 27 10 * 10 - 5).toNat / (10 : ℤ).toNat : ℕ) : ℚ) * 1 ≤
      ((Int.tdiv 27 10 * 10 : ℤ) : ℚ) / 10 ∧
    ((Int.tdiv 27 10 * 10 : ℤ) : ℚ) / 10 <
      1/2 + (((Int.tdiv 27 10 * 10 - 5).toNat / (10 : ℤ).toNat : ℕ) : ℚ) * 1 + 1 ∧
    ((Int.tdiv 27 10 * 10 : ℤ) : ℚ) / 10 ≤ 27/10 ∧
    (27/10 : ℚ) < ((Int.tdiv 27 10 * 10 : ℤ) : ℚ) / 10 + 1 :=
  ticks_arith_progression (1/2) (27/10) 1 5 27 10 (by norm_num) (by norm_num)
    (by norm_num) (by decide) (by decide) (by decide)

/-- C3 counterexample: for `min = 0.05`, `max = 2`, `step = 1` the returned
sequence is `[0, 1, 2]`: its first element `0` violates `min ≤ t`, no
element is of the form `min + k*step`, and `min` itself is not an
element. -/
theorem ticks_min_not_element_cex :
    ticks (1/20) 2 1 = some [0, 1, 2] ∧
    ¬ ((1/20 : ℚ) ≤ 0) ∧ (1/20 : ℚ) ∉ ([0, 1, 2] : List ℚ) := by
  refine ⟨?_, by norm_num, ?_⟩
  · rw [ticks_eval (1/20) 2 1 0 20 10 2 [0, 10, 20]
      (by norm_num [pytrunc]) (by norm_num [pytrunc]) (by norm_num [pytrunc])
      (by decide) (by decide) (by decide)]
    norm_num
  · intro hmem
    simp only [List.mem_cons, List.not_mem_nil, or_false] at hmem
    rcases hmem with h | h | h <;> norm_num at h

/-- C3 (amended): for inputs exact in one decimal place, positive step,
nonnegative max and a nonempty scaled range, every element `t` of the
returned sequence satisfies `min ≤ t`, `t = min + k*step` for a
nonnegative integer `k`, and `t ≤ max`; the sequence is non-decreasing
and includes `min`. -/
theorem ticks_element_invariant (min max step : ℚ) (a m s : ℤ)
    (ha : min * 10 = (a : ℚ)) (hm : max * 10 = (m : ℚ)) (hs : step * 10 = (s : ℚ))
    (h0 : 0 < s) (hmnn : 0 ≤ m) (hne : a ≤ Int.tdiv m s * s) :
    (∀ t ∈ (ticks min max step).getD [],
      min ≤ t ∧ (∃ k : ℕ, t = min + (k : ℚ) * step) ∧ t ≤ max) ∧
    ((ticks min max step).getD []).Sorted (· ≤ ·) ∧
    min ∈ (ticks min max step).getD [] := by
  have hcf := ticks_closed_form min max step a m s ha hm hs h0 hne
  have hK := div_step_facts (Int.tdiv m s * s - a) s h0 (by omega)
  have hB := tdiv_boundary_facts m s h0 hmnn
  have hmin : min = (a : ℚ) / 10 := by field_simp; linarith
  have hstep : step = (s : ℚ) / 10 := by field_simp; linarith
  have hmax : max = (m : ℚ) / 10 := by field_simp; linarith
  have hsq : (0 : ℚ) < (s : ℚ) := by exact_mod_cast h0
  have hstep_nonneg : 0 ≤ step := by rw [hstep]; positivity
  obtain ⟨T, hT⟩ : ∃ T : ℤ, Int.tdiv m s = T := ⟨_, rfl⟩
  rw [hT] at hcf hK hB
  obtain ⟨N, hN⟩ : ∃ N : ℕ, (T * s - a).toNat / s.toNat = N := ⟨_, rfl⟩
  rw [hN] at hcf hK
  have q1 : (N : ℚ) * (s : ℚ) ≤ (T : ℚ) * s - a := by exact_mod_cast hK.1
  have q3 : (T : ℚ) * s ≤ (m : ℚ) := by exact_mod_cast hB.1
  rw [hcf]
  simp only [Option.getD_some]
  refine ⟨?_, ?_, ?_⟩
  · intro t ht
    simp only [List.mem_map, List.mem_range] at ht
    obtain ⟨k, hk, rfl⟩ := ht
    have hk' : (k : ℚ) ≤ (N : ℚ) := by
      have h := Nat.lt_succ_iff.mp hk
      exact_mod_cast h
    refine ⟨?_, ⟨k, rfl⟩, ?_⟩
    · have hkq : 0 ≤ (k : ℚ) * step :=
        mul_nonneg (Nat.cast_nonneg k) hstep_nonneg
      linarith
    · have hks : (k : ℚ) * (s : ℚ) ≤ (N : ℚ) * (s : ℚ) :=
        mul_le_mul_of_nonneg_right hk' hsq.le
      rw [hmin, hstep, hmax]
      linarith
  · refine List.Pairwise.map _ ?_ (List.sorted_le_range _)
    intro i j hij
    have hijq : (i : ℚ) ≤ (j : ℚ) := by exact_mod_cast hij
    have := mul_le_mul_of_nonneg_right hijq hstep_nonneg
    linarith
  · simp only [List.mem_map, List.mem_range]
    exact ⟨0, Nat.succ_pos _, by simp⟩

/-- Witness for C3 (amended) at `min = 0.5`, `max = 2.7`, `step = 1`:
the returned sequence is non-decreasing and contains `min`. -/
theorem ticks_element_invariant_witness :
    ((ticks (1/2) (27/10) 1).getD []).Sorted (· ≤ ·) ∧
    (1/2 : ℚ) ∈ (ticks (1/2) (27/10) 1).getD [] :=
  (ticks_element_invariant (1/2) (27/10) 1 5 27 10 (by norm_num) (by norm_num)
    (by norm_num) (by decide) (by decide) (by decide)).2

end Visualize

namespace PlotBenchmark

/-- C6: a raw record with `N` parameters expands into exactly `N` flat
rows, and every such row carries the primaryMetric score of the record
unchanged. -/
theorem processResult_count_and_score (r : RawResult) :
    (processResult r).length = r.params.length ∧
    ∀ row ∈ processResult r, row.score = r.score := by
  constructor
  · simp [processResult]
  · intro row hrow
    simp only [processResult, List.mem_map] at hrow
    obtain ⟨pv, _, rfl⟩ := hrow
    rfl

/-- A sample raw record used to witness C6. -/
def sampleRaw : RawResult :=
  { benchmark := "a.b.Bench.run".data
    params := [("size", 10), ("threads", 2)]
    score := 11/2 }

/-- Witness for C6 at a concrete two-parameter record. -/
theorem processResult_count_and_score_witness :
    (processResult sampleRaw).length = 2 ∧
    FlatRow.score ⟨benchDisplayName sampleRaw.benchmark, "size", 10, sampleRaw.score⟩
      = 11/2 := by
  have h := processResult_count_and_score sampleRaw
  constructor
  · rw [h.1]
    rfl
  · have hmem : (⟨benchDisplayName sampleRaw.benchmark, "size", 10, sampleRaw.score⟩ :
        FlatRow) ∈ processResult sampleRaw := List.mem_cons_self _ _
    exact h.2 _ hmem

/-- C7: the benchmark display name stored in the flat table is the
substring of the dotted identifier after its last dot; when the
identifier contains no dot it is the whole identifier. -/
theorem benchDisplayName_after_last_dot (s : List Char) :
    benchDisplayName s = substringAfterLast '.' s ∧
    ('.' ∉ s → benchDisplayName s = s) := by
  constructor
  · exact pysplit_getLastD '.' s
  · intro h
    unfold benchDisplayName
    rw [pysplit_of_not_mem '.' s h]
    rfl

/-- Witness for C7 at the example identifier of the spec and at a
dot-free identifier. -/
theorem benchDisplayName_after_last_dot_witness :
    benchDisplayName "org.bench.FooBenchmark.insert".data = "insert".data ∧
    benchDisplayName "insert".data = "insert".data := by
  constructor
  · exact (benchDisplayName_after_last_dot _).1.trans (by decide)
  · exact (benchDisplayName_after_last_dot "insert".data).2 (by decide)

end PlotBenchmark
